import Mathlib

/-!
Verification of the report-building core of `.github/scripts/deploy-report.mjs`.

The JavaScript source is shallowly embedded below: each definition mirrors one
function (or one local constant) of the script.  JavaScript numbers that can
only be naturals, `NaN` or `undefined` in this program are modelled as
`Option (Option Nat)` (`none` = `undefined`, `some none` = `NaN`); JavaScript
strings are Lean `String`s (or `List Char` where index arithmetic matters);
absent object fields are `Option` fields; epoch timestamps are `Int`
milliseconds.
-/

/-- Digits of a decimal numeral to a natural number. -/
def natOfDigits (cs : List Char) : Nat :=
  cs.foldl (fun a c => a * 10 + (c.toNat - 48)) 0

/-- Template-literal rendering of a possibly `undefined` / `NaN` number. -/
def jnShow : Option (Option Nat) → String
  | some (some n) => toString n
  | some none => "NaN"
  | none => "undefined"

/-- JavaScript `x + 1` on a possibly `undefined` / `NaN` number. -/
def jnAdd1 : Option (Option Nat) → Option Nat
  | some (some n) => some (n + 1)
  | _ => none

/-- JavaScript `x >= 1` on a possibly `undefined` / `NaN` number. -/
def jnGe1 : Option (Option Nat) → Bool
  | some (some n) => decide (1 ≤ n)
  | _ => false

/-- Lines 150-159 of `buildReport`: the semantic-version bump computed from
the destructured previous version and the two presence flags. -/
def bumpVersion (major minor patch : Option (Option Nat))
    (hasAdded hasDeleted : Bool) : String :=
  if jnGe1 major then
    if hasDeleted then jnShow (some (jnAdd1 major)) ++ ".0.0"
    else if hasAdded then jnShow major ++ "." ++ jnShow (some (jnAdd1 minor)) ++ ".0"
    else jnShow major ++ "." ++ jnShow minor ++ "." ++ jnShow (some (jnAdd1 patch))
  else
    if hasAdded || hasDeleted then "0." ++ jnShow (some (jnAdd1 minor)) ++ ".0"
    else "0." ++ jnShow minor ++ "." ++ jnShow (some (jnAdd1 patch))

/-- A component change record as `buildReport` shapes it before and after
grouping: `nodeId`/`setName` are attached by `enrichComp` (or by the
deleted-components map), `variantCount` is absent (`none`) until `groupBySet`
sets it. -/
structure CompRec where
  name : String
  key : String
  nodeId : Option String
  setName : String
  variantCount : Option Nat
deriving DecidableEq, Repr

/-- The grouping key `c.setName || c.name` (line 135): the set name unless it
is falsy (the empty string). -/
def groupKey (c : CompRec) : String :=
  if c.setName = "" then c.name else c.setName

/-- `acc[key].variantCount++` (line 137); an absent count would stay `NaN`,
modelled by `none`. -/
def incVC (c : CompRec) : CompRec :=
  { c with variantCount := c.variantCount.map (· + 1) }

/-- `{ ...c, variantCount: 1 }` (line 136): the spread is overridden by the
explicit `variantCount: 1`. -/
def resetVC (c : CompRec) : CompRec :=
  { c with variantCount := some 1 }

/-- Keys inherited by every plain object literal from `Object.prototype` in
Node.  For such a key, `!acc[key]` (line 136) is false even before any
insertion — the lookup sees the inherited member, which is truthy — so the
reduce takes the increment branch, writes `variantCount` onto the prototype
member, and never stores an own entry for the record. -/
def objectProtoKeys : List String :=
  ["constructor", "hasOwnProperty", "isPrototypeOf", "propertyIsEnumerable",
   "toLocaleString", "toString", "valueOf", "__defineGetter__",
   "__defineSetter__", "__lookupGetter__", "__lookupSetter__", "__proto__"]

def isProtoKey (k : String) : Bool :=
  decide (k ∈ objectProtoKeys)

/-- One step of the `reduce` inside `groupBySet` (lines 134-139), acting on
the accumulator object's own entries kept in insertion order. -/
def upsert (acc : List (String × CompRec)) (c : CompRec) :
    List (String × CompRec) :=
  let k := groupKey c
  if isProtoKey k then acc
  else if k ∈ acc.map Prod.fst then
    acc.map (fun e => if e.1 = k then (e.1, incVC e.2) else e)
  else acc ++ [(k, resetVC c)]

/-- A string that is a canonical array index in ECMAScript: a canonical
decimal numeral (no leading zero except `"0"` itself) whose value is below
2^32 - 1. -/
def isArrayIndexKey (s : String) : Bool :=
  (match s.toList with
   | [] => false
   | ['0'] => true
   | c :: _ => c.isDigit && c != '0')
  && s.toList.all Char.isDigit && decide (natOfDigits s.toList < 4294967295)

/-- Numeric value of an (array-index) key. -/
def keyNum (s : String) : Nat := natOfDigits s.toList

def entLE (a b : String × CompRec) : Prop := keyNum a.1 ≤ keyNum b.1

instance : DecidableRel entLE := fun _ _ => Nat.decLe _ _

instance : IsTotal (String × CompRec) entLE := ⟨fun _ _ => Nat.le_total _ _⟩

instance : IsTrans (String × CompRec) entLE := ⟨fun _ _ _ h1 h2 => Nat.le_trans h1 h2⟩

/-- `Object.values` enumeration over the own entries of an object
(ECMAScript OrdinaryOwnPropertyKeys): array-index keys first in ascending
numeric order, then the remaining string keys in insertion order. -/
def objectEntries (es : List (String × CompRec)) : List (String × CompRec) :=
  List.insertionSort entLE (es.filter (fun e => isArrayIndexKey e.1))
    ++ es.filter (fun e => !isArrayIndexKey e.1)

/-- `groupBySet` (lines 132-140): collapse component records sharing a
grouping key into single entries carrying a `variantCount`. -/
def groupBySet (items : List CompRec) : List CompRec :=
  (objectEntries (items.foldl upsert [])).map Prod.snd

def keyLE (a b : String) : Prop := keyNum a ≤ keyNum b

instance : DecidableRel keyLE := fun _ _ => Nat.decLe _ _

/-- First-occurrence deduplication of a key sequence, skipping keys already
in `seen`. -/
def dedupFrom (seen : List String) : List String → List String
  | [] => []
  | k :: ks => if k ∈ seen then dedupFrom seen ks else k :: dedupFrom (seen ++ [k]) ks

/-- The enumeration order `Object.values` imposes on a list of distinct keys:
array-index keys ascending, then the rest in the given order. -/
def jsEnumOrder (ks : List String) : List String :=
  List.insertionSort keyLE (ks.filter isArrayIndexKey)
    ++ ks.filter (fun k => !isArrayIndexKey k)

/-- Agreement of two records on every field except `variantCount`. -/
def sameNonVC (a b : CompRec) : Prop :=
  a.name = b.name ∧ a.key = b.key ∧ a.nodeId = b.nodeId ∧ a.setName = b.setName

/-- Concrete input for C4: the set names "A" and "5" in that input order. -/
def c4ex : List CompRec :=
  [⟨"A", "kA", none, "A", none⟩, ⟨"5", "k5", none, "5", none⟩]

/-- Concrete input for C5: two variants of one set, so the grouped entry has
`variantCount` 2. -/
def c5ex : List CompRec :=
  [⟨"Button A", "k1", none, "Button", none⟩,
   ⟨"Button B", "k2", none, "Button", none⟩]

/-- Concrete input for C10: a single record whose grouping key is the
inherited `Object.prototype` member name "toString". -/
def c10ex : List CompRec := [⟨"toString", "k1", none, "", none⟩]

/-- Concrete input for the C10 witness: two variants of one set plus a
singleton set. -/
def c10wit : List CompRec :=
  [⟨"Button A", "kb1", none, "Button", none⟩,
   ⟨"Button B", "kb2", none, "Button", none⟩,
   ⟨"Chip", "kc", none, "Chip", none⟩]

/-- `MAX_ITEMS` (line 266). -/
def MAX_ITEMS : Nat := 20

/-- `buildSection` in `notifySlack` (lines 267-272).  The escaped codepoints
reproduce the literal characters of the script's bullet prefix and its
"...and N more" suffix. -/
def buildSection (label : String) (items : List String) : Option String :=
  if items.length = 0 then none
  else
    let shown := String.intercalate "\n"
      ((items.take MAX_ITEMS).map (fun t => "β€Ά " ++ t))
    let extra := if items.length > MAX_ITEMS then
        "\nβ€Ά _...μ™Έ "
          ++ toString (items.length - MAX_ITEMS) ++ "κ±΄_"
      else ""
    some (label ++ "\n" ++ shown ++ extra)

/-- Concrete 20- and 21-item lists for the C6 witness. -/
def c6a : List String := List.replicate 20 "x"

def c6b : List String := List.replicate 21 "y"

/-- The line terminators after which a multiline `^` matches in JavaScript
regular expressions. -/
def isLineTerm (c : Char) : Bool :=
  c = '\n' || c = '\r' || c = ' ' || c = ' '

/-- Whether `## ` followed by a digit (the body of `/^## \d/`) matches at the
head of the character list. -/
def matchesHeading : List Char → Bool
  | '#' :: '#' :: ' ' :: c :: _ => c.isDigit
  | _ => false

/-- `changelogContent.search(/^## \d/m)` (line 216): position of the first
line-start match; `atStart` says whether the current position starts the
input or follows a line terminator. -/
def findHeading : List Char → Bool → Option Nat
  | [], _ => none
  | c :: rest, atStart =>
    if atStart && matchesHeading (c :: rest) then some 0
    else (findHeading rest (isLineTerm c)).map (· + 1)

/-- The WhiteSpace and LineTerminator characters that
`String.prototype.trimEnd` strips. -/
def jsWhitespace (c : Char) : Bool :=
  ['\t', '\n', '\u000b', '\u000c', '\r', ' ', ' ', ' ',
   ' ', ' ', ' ', ' ', ' ', ' ', ' ',
   ' ', ' ', ' ', ' ', ' ', ' ', ' ',
   ' ', '　', '﻿'].contains c

/-- `changelogContent.trimEnd()` (line 219). -/
def jsTrimEnd (l : List Char) : List Char :=
  (l.reverse.dropWhile jsWhitespace).reverse

/-- Lines 216-219 of `writeGitHub`: splice the new changelog section in
before the first `^## \d` match, or append it after trimming trailing
whitespace when there is no match. -/
def updateChangelog (content md : List Char) : List Char :=
  match findHeading content true with
  | some i => content.take i ++ md ++ content.drop i
  | none => jsTrimEnd content ++ '\n' :: '\n' :: md

/-- Line-start status of position `i` (with `b` the status of position 0). -/
def startFlagAt (b : Bool) (l : List Char) : Nat → Bool
  | 0 => b
  | i + 1 =>
    match l.drop i with
    | c :: _ => isLineTerm c
    | [] => false

/-- A `^## \d` match at position `i` of `l`, stated declaratively. -/
def headingAtFrom (b : Bool) (l : List Char) (i : Nat) : Bool :=
  startFlagAt b l i && matchesHeading (l.drop i)

/-- Consume one-or-more digits (`\d+`), returning the rest of the input. -/
def consumeDigits (l : List Char) : Option (List Char) :=
  match l with
  | c :: rest => if c.isDigit then some (rest.dropWhile Char.isDigit) else none
  | [] => none

/-- The version-heading pattern `## \d+\.\d+\.\d+` of `readGitHub` (line 43)
matching at the head of the list — the notion of "version heading" the
changelog format defines. -/
def matchesVersionHeading (l : List Char) : Bool :=
  match l with
  | '#' :: '#' :: ' ' :: rest =>
    match consumeDigits rest with
    | some ('.' :: r1) =>
      match consumeDigits r1 with
      | some ('.' :: r2) => (consumeDigits r2).isSome
      | _ => false
    | _ => false
  | _ => false

/-- A full version heading at line-start position `i`. -/
def versionHeadingAt (l : List Char) (i : Nat) : Bool :=
  startFlagAt true l i && matchesVersionHeading (l.drop i)

/-- Concrete previous changelog for C7: a non-version line "## 2 notes"
precedes the only version heading "## 1.0.0". -/
def c7content : List Char := "# L\n## 2 notes\n## 1.0.0\n".toList

/-- Concrete new section for C7. -/
def c7md : List Char := "## 1.1.0 - 2026-01-01\n\n".toList

/-- Concrete changelog with a version heading at position 6 for the C7
witness. -/
def c7wit : List Char := "intro\n## 1.2.3\nold\n".toList

/-- Concrete heading-free changelog for the C7 witness. -/
def c7nh : List Char := "notes only\n\n".toList

/-- A webhook asset entry `{ name, key }`. -/
structure Asset where
  name : String
  key : String
deriving DecidableEq, Repr

structure NamedObj where
  name : String
deriving DecidableEq, Repr

/-- The `containing_frame` of a component meta, with the current and legacy
field names for the containing set. -/
structure ContainingFrame where
  containing_component_set : Option NamedObj
  containingComponentSet : Option NamedObj
deriving DecidableEq, Repr

/-- The `meta` object of a Figma components/styles API response. -/
structure FigmaMeta where
  key : String
  node_id : Option String
  containing_frame : Option ContainingFrame
deriving DecidableEq, Repr

/-- One settled lookup of `fetchFigma`: a success carries `meta`; an error
marker carries none. -/
structure FetchItem where
  meta : Option FigmaMeta
deriving DecidableEq, Repr

/-- The result of `fetchFigma` (lines 73-87). -/
structure FetchResult where
  componentMetas : List FetchItem
  styleMetas : List FetchItem
deriving DecidableEq, Repr

/-- The flattened webhook produced by `parseWebhook`; `timestamp` is epoch
milliseconds (`none` = absent), `triggered_by` is the handle. -/
structure Webhook where
  file_key : String
  timestamp : Option Int
  triggered_by : Option String
  created_variables : List Asset
  deleted_variables : List Asset
  modified_variables : List Asset
  created_styles : List Asset
  deleted_styles : List Asset
  modified_styles : List Asset
  created_components : List Asset
  deleted_components : List Asset
  modified_components : List Asset
deriving DecidableEq, Repr

/-- Keys fetched for components (lines 63-66): the concatenation of created
and modified components, one lookup per element. -/
def requestedComponentKeys (w : Webhook) : List String :=
  (w.created_components ++ w.modified_components).map (fun c => c.key)

/-- Keys fetched for styles (lines 68-71). -/
def requestedStyleKeys (w : Webhook) : List String :=
  (w.created_styles ++ w.modified_styles).map (fun s => s.key)

/-- `getCompMeta` (line 100). -/
def getCompMeta (fr : FetchResult) (key : String) : Option FigmaMeta :=
  (fr.componentMetas.find? (fun m =>
    match m.meta with
    | some mm => mm.key == key
    | none => false)).bind FetchItem.meta

/-- `getStyleMeta` (line 101). -/
def getStyleMeta (fr : FetchResult) (key : String) : Option FigmaMeta :=
  (fr.styleMetas.find? (fun m =>
    match m.meta with
    | some mm => mm.key == key
    | none => false)).bind FetchItem.meta

/-- An enriched style entry `{ ...s, nodeId }`. -/
structure StyleEntry where
  name : String
  key : String
  nodeId : Option String
deriving DecidableEq, Repr

/-- `stylesAdded` (lines 109-111). -/
def stylesAddedOf (w : Webhook) (fr : FetchResult) : List StyleEntry :=
  w.created_styles.map (fun s =>
    { name := s.name, key := s.key,
      nodeId := (getStyleMeta fr s.key).bind FigmaMeta.node_id })

/-- `stylesModified` (lines 113-115). -/
def stylesModifiedOf (w : Webhook) (fr : FetchResult) : List StyleEntry :=
  w.modified_styles.map (fun s =>
    { name := s.name, key := s.key,
      nodeId := (getStyleMeta fr s.key).bind FigmaMeta.node_id })

/-- JavaScript `a || b` on an optional string (absent and empty are falsy). -/
def jsOrStr (a : Option String) (b : String) : String :=
  match a with
  | some s => if s = "" then b else s
  | none => b

/-- `enrichComp` (lines 118-127). -/
def enrichComp (fr : FetchResult) (c : Asset) : CompRec :=
  let meta := getCompMeta fr c.key
  { name := c.name
    key := c.key
    nodeId := meta.bind FigmaMeta.node_id
    setName := jsOrStr
      ((meta.bind FigmaMeta.containing_frame).bind
        (fun f => f.containing_component_set.map NamedObj.name))
      (jsOrStr
        ((meta.bind FigmaMeta.containing_frame).bind
          (fun f => f.containingComponentSet.map NamedObj.name))
        c.name)
    variantCount := none }

/-- `componentsAdded` (line 128). -/
def componentsAddedOf (w : Webhook) (fr : FetchResult) : List CompRec :=
  w.created_components.map (enrichComp fr)

/-- `componentsDeleted` (line 129): `{ ...c, setName: c.name }`, no lookup. -/
def componentsDeletedOf (w : Webhook) : List CompRec :=
  w.deleted_components.map (fun c =>
    { name := c.name, key := c.key, nodeId := none, setName := c.name,
      variantCount := none })

/-- `componentsModified` (line 130). -/
def componentsModifiedOf (w : Webhook) (fr : FetchResult) : List CompRec :=
  w.modified_components.map (enrichComp fr)

/-- `groupedAdded` (line 142). -/
def groupedAddedOf (w : Webhook) (fr : FetchResult) : List CompRec :=
  groupBySet (componentsAddedOf w fr)

/-- `groupedDeleted` (line 143). -/
def groupedDeletedOf (w : Webhook) : List CompRec :=
  groupBySet (componentsDeletedOf w)

/-- `groupedModified` (line 144). -/
def groupedModifiedOf (w : Webhook) (fr : FetchResult) : List CompRec :=
  groupBySet (componentsModifiedOf w fr)

/-- `hasAdded` (line 147). -/
def hasAddedOf (w : Webhook) (fr : FetchResult) : Bool :=
  decide (w.created_variables.length + (stylesAddedOf w fr).length
    + (componentsAddedOf w fr).length > 0)

/-- `hasDeleted` (line 148). -/
def hasDeletedOf (w : Webhook) : Bool :=
  decide (w.deleted_variables.length + w.deleted_styles.length
    + (componentsDeletedOf w).length > 0)

/-- `String.prototype.split` with the one-character separator `"."`. -/
def splitOnChar (sep : Char) : List Char → List (List Char)
  | [] => [[]]
  | c :: rest =>
    if c = sep then [] :: splitOnChar sep rest
    else
      match splitOnChar sep rest with
      | h :: t => (c :: h) :: t
      | [] => [[c]]

/-- Strip leading and trailing JavaScript whitespace. -/
def trimChars (cs : List Char) : List Char :=
  ((cs.dropWhile jsWhitespace).reverse.dropWhile jsWhitespace).reverse

/-- Model of JavaScript `Number` restricted to the strings this script feeds
it (version components): after trimming, the empty string is `0`, a string
of decimal digits is its value, anything else is `NaN` (`none`). -/
def jsNumber (cs : List Char) : Option Nat :=
  let t := trimChars cs
  if t = [] then some 0
  else if t.all Char.isDigit then some (natOfDigits t)
  else none

/-- Lines 150-159: destructure `currentVersion.split(".").map(Number)` and
bump. -/
def newVersionOf (currentVersion : String) (w : Webhook) (fr : FetchResult) :
    String :=
  let parts := (splitOnChar '.' currentVersion.toList).map jsNumber
  bumpVersion parts[0]? parts[1]? parts[2]? (hasAddedOf w fr) (hasDeletedOf w)

/-- `webhook.timestamp || Date.now()` (line 163): the timestamp unless it is
falsy (absent or the number 0), in which case the wall clock `now` is used. -/
def timestampMs (w : Webhook) (now : Int) : Int :=
  match w.timestamp with
  | some t => if t = 0 then now else t
  | none => now

def pad2 (n : Nat) : String :=
  if n < 10 then "0" ++ toString n else toString n

def pad4 (n : Nat) : String :=
  if n < 10 then "000" ++ toString n
  else if n < 100 then "00" ++ toString n
  else if n < 1000 then "0" ++ toString n
  else toString n

def pad6 (n : Nat) : String :=
  if n < 10 then "00000" ++ toString n
  else if n < 100 then "0000" ++ toString n
  else if n < 1000 then "000" ++ toString n
  else if n < 10000 then "00" ++ toString n
  else if n < 100000 then "0" ++ toString n
  else toString n

/-- Proleptic-Gregorian civil date from days since the Unix epoch (year,
month, day). -/
def civilFromDays (z0 : Int) : Int × Nat × Nat :=
  let z := z0 + 719468
  let era := z.fdiv 146097
  let doe := (z - era * 146097).toNat
  let yoe := (doe - doe / 1460 + doe / 36524 - doe / 146096) / 365
  let doy := doe - (365 * yoe + yoe / 4 - yoe / 100)
  let mp := (5 * doy + 2) / 153
  let d := doy - (153 * mp + 2) / 5 + 1
  let m := if mp < 10 then mp + 3 else mp - 9
  let y := (yoe : Int) + era * 400
  (if m ≤ 2 then y + 1 else y, m, d)

/-- The first ten characters of `Date.prototype.toISOString` for a timestamp
in the representable range: `YYYY-MM-DD`, or the sign and expanded six-digit
year plus `-MM` for years outside 0..9999. -/
def isoDateSlice10 (ms : Int) : String :=
  match civilFromDays (ms.fdiv 86400000) with
  | (y, m, d) =>
    if 0 ≤ y ∧ y ≤ 9999 then pad4 y.toNat ++ "-" ++ pad2 m ++ "-" ++ pad2 d
    else (if y < 0 then "-" else "+") ++ pad6 y.natAbs ++ "-" ++ pad2 m

/-- Lines 163-165: shift the event timestamp forward by 9 hours and truncate
to a calendar-day string. -/
def dateStrOf (w : Webhook) (now : Int) : String :=
  isoDateSlice10 (timestampMs w now + 9 * 60 * 60 * 1000)

/-- `mdLink` (line 98); a falsy (absent or empty) node id yields plain text. -/
def mdLink (figmaBase name : String) (nodeId : Option String) : String :=
  match nodeId with
  | some nid =>
    if nid = "" then name
    else "[" ++ name ++ "](" ++ figmaBase ++ "?node-id=" ++ nid ++ ")"
  | none => name

/-- The `variantCount > 1 ? \` *(N)*\` : ""` suffix (lines 172/179/186). -/
def vcSuffixMd (vc : Option Nat) : String :=
  match vc with
  | some n => if 1 < n then " *(" ++ toString n ++ ")*" else ""
  | none => ""

/-- The changelog markdown section `md` of `buildReport` (lines 162-188).
The escaped and literal non-ASCII codepoints reproduce the script's section
headings byte for byte. -/
def changelogMdOf (w : Webhook) (currentVersion : String) (fr : FetchResult)
    (now : Int) : String :=
  let figmaBase := "https://www.figma.com/file/" ++ w.file_key
  let addedLines :=
    w.created_variables.map (fun v => "- " ++ v.name)
    ++ (stylesAddedOf w fr).map (fun s => "- " ++ mdLink figmaBase s.name s.nodeId)
    ++ (groupedAddedOf w fr).map (fun c =>
        "- " ++ mdLink figmaBase c.setName c.nodeId ++ vcSuffixMd c.variantCount)
  let modifiedLines :=
    (if w.modified_variables.length > 0 then
      ["- μμ •λ λ³€μ μμ ("
        ++ toString w.modified_variables.length ++ "κ° λ―Έν™•μΈ)"]
    else [])
    ++ (stylesModifiedOf w fr).map (fun s => "- " ++ mdLink figmaBase s.name s.nodeId)
    ++ (groupedModifiedOf w fr).map (fun c =>
        "- " ++ mdLink figmaBase c.setName c.nodeId ++ vcSuffixMd c.variantCount)
  let deletedLines :=
    w.deleted_variables.map (fun v => "- " ++ v.name)
    ++ w.deleted_styles.map (fun s => "- " ++ s.name)
    ++ (groupedDeletedOf w).map (fun c =>
        "- " ++ c.setName ++ vcSuffixMd c.variantCount)
  "## " ++ newVersionOf currentVersion w fr ++ " - " ++ dateStrOf w now ++ "\n\n"
  ++ (if addedLines.length > 0 then
      "### μ¶”κ°€\n" ++ String.intercalate "\n" addedLines ++ "\n\n" else "")
  ++ (if modifiedLines.length > 0 then
      "### μμ •\n" ++ String.intercalate "\n" modifiedLines ++ "\n\n" else "")
  ++ (if deletedLines.length > 0 then
      "### μ‚­μ \n" ++ String.intercalate "\n" deletedLines ++ "\n\n" else "")

/-- The value `buildReport` returns (lines 190-202). -/
structure Report where
  newVersion : String
  changelogMd : String
  variablesAdded : List Asset
  variablesDeleted : List Asset
  variablesModified : List Asset
  stylesAdded : List StyleEntry
  stylesDeleted : List Asset
  stylesModified : List StyleEntry
  groupedAdded : List CompRec
  groupedDeleted : List CompRec
  groupedModified : List CompRec
deriving DecidableEq, Repr

/-- `buildReport` (lines 93-203), with `Date.now()` passed explicitly as
`now`. -/
def buildReport (w : Webhook) (currentVersion : String) (fr : FetchResult)
    (now : Int) : Report :=
  { newVersion := newVersionOf currentVersion w fr
    changelogMd := changelogMdOf w currentVersion fr now
    variablesAdded := w.created_variables
    variablesDeleted := w.deleted_variables
    variablesModified := w.modified_variables
    stylesAdded := stylesAddedOf w fr
    stylesDeleted := w.deleted_styles
    stylesModified := stylesModifiedOf w fr
    groupedAdded := groupedAddedOf w fr
    groupedDeleted := groupedDeletedOf w
    groupedModified := groupedModifiedOf w fr }

/-- A webhook with its three modified lists replaced. -/
def setModified (w : Webhook) (mv ms mc : List Asset) : Webhook :=
  { w with
    modified_variables := mv
    modified_styles := ms
    modified_components := mc }

/-- Concrete webhook for the C8 witness: one added variable, style and
component, explicit timestamp. -/
def w8 : Webhook :=
  { file_key := "F", timestamp := some 1700000000000,
    triggered_by := some "kim",
    created_variables := [⟨"v1", "kv1"⟩], deleted_variables := [],
    modified_variables := [], created_styles := [⟨"Primary", "S1"⟩],
    deleted_styles := [], modified_styles := [],
    created_components := [⟨"Button A", "C1"⟩], deleted_components := [],
    modified_components := [] }

/-- Concrete enrichment for the C8 witness. -/
def fr8 : FetchResult :=
  { componentMetas := [⟨some ⟨"C1", some "10:1", some ⟨some ⟨"Button"⟩, none⟩⟩⟩],
    styleMetas := [⟨some ⟨"S1", some "10:2", none⟩⟩] }

/-- Concrete webhook for C9: the same component key in both the created and
the modified list. -/
def c9w : Webhook :=
  { file_key := "F", timestamp := some 1, triggered_by := none,
    created_variables := [], deleted_variables := [], modified_variables := [],
    created_styles := [], deleted_styles := [], modified_styles := [],
    created_components := [⟨"X", "k"⟩], deleted_components := [],
    modified_components := [⟨"X", "k"⟩] }

/-- C1: for every previous version with major ≥ 1, deletions bump the major
and reset minor and patch (regardless of additions); otherwise additions bump
the minor and reset patch; otherwise only the patch is bumped. -/
theorem claim_C1 (M m p : Nat) (hA hD : Bool) (h : 1 ≤ M) :
    (hD = true →
      bumpVersion (some (some M)) (some (some m)) (some (some p)) hA hD
        = toString (M + 1) ++ ".0.0")
    ∧ (hD = false → hA = true →
      bumpVersion (some (some M)) (some (some m)) (some (some p)) hA hD
        = toString M ++ "." ++ toString (m + 1) ++ ".0")
    ∧ (hD = false → hA = false →
      bumpVersion (some (some M)) (some (some m)) (some (some p)) hA hD
        = toString M ++ "." ++ toString m ++ "." ++ toString (p + 1)) := by
  refine ⟨fun hd => ?_, fun hd ha => ?_, fun hd ha => ?_⟩
  · simp [bumpVersion, jnGe1, jnShow, jnAdd1, h, hd]
  · simp [bumpVersion, jnGe1, jnShow, jnAdd1, h, hd, ha]
  · simp [bumpVersion, jnGe1, jnShow, jnAdd1, h, hd, ha]

/-- Witness for C1 at version 2.3.4 under all three flag combinations. -/
theorem claim_C1_witness :
    (1 ≤ 2 ∧
      bumpVersion (some (some 2)) (some (some 3)) (some (some 4)) true true
        = toString (2 + 1) ++ ".0.0")
    ∧ bumpVersion (some (some 2)) (some (some 3)) (some (some 4)) true false
        = toString 2 ++ "." ++ toString (3 + 1) ++ ".0"
    ∧ bumpVersion (some (some 2)) (some (some 3)) (some (some 4)) false false
        = toString 2 ++ "." ++ toString 3 ++ "." ++ toString (4 + 1) :=
  ⟨⟨by decide, (claim_C1 2 3 4 true true (by decide)).1 rfl⟩,
    (claim_C1 2 3 4 true false (by decide)).2.1 rfl rfl,
    (claim_C1 2 3 4 false false (by decide)).2.2 rfl rfl⟩

/-- C2: for every previous version with major = 0, any addition or deletion
(in any combination) bumps the minor and resets patch, and the no-change case
bumps only the patch. -/
theorem claim_C2 (m p : Nat) (hA hD : Bool) :
    ((hA || hD) = true →
      bumpVersion (some (some 0)) (some (some m)) (some (some p)) hA hD
        = "0." ++ toString (m + 1) ++ ".0")
    ∧ (hA = false → hD = false →
      bumpVersion (some (some 0)) (some (some m)) (some (some p)) hA hD
        = "0." ++ toString m ++ "." ++ toString (p + 1)) := by
  refine ⟨fun had => ?_, fun ha hd => ?_⟩
  · simp [bumpVersion, jnGe1, jnShow, jnAdd1, had]
  · simp [bumpVersion, jnGe1, jnShow, jnAdd1, ha, hd]

/-- Witness for C2 at version 0.7.9: additions-only, deletions-only and
both-present all produce the identical minor bump, and no change bumps patch. -/
theorem claim_C2_witness :
    bumpVersion (some (some 0)) (some (some 7)) (some (some 9)) true false
      = "0." ++ toString (7 + 1) ++ ".0"
    ∧ bumpVersion (some (some 0)) (some (some 7)) (some (some 9)) false true
      = "0." ++ toString (7 + 1) ++ ".0"
    ∧ bumpVersion (some (some 0)) (some (some 7)) (some (some 9)) true true
      = "0." ++ toString (7 + 1) ++ ".0"
    ∧ bumpVersion (some (some 0)) (some (some 7)) (some (some 9)) false false
      = "0." ++ toString 7 ++ "." ++ toString (9 + 1) :=
  ⟨(claim_C2 7 9 true false).1 rfl, (claim_C2 7 9 false true).1 rfl,
    (claim_C2 7 9 true true).1 rfl, (claim_C2 7 9 false false).2 rfl rfl⟩

theorem groupKey_incVC (c : CompRec) : groupKey (incVC c) = groupKey c := rfl

theorem groupKey_resetVC (c : CompRec) : groupKey (resetVC c) = groupKey c := rfl

theorem sameNonVC_refl (c : CompRec) : sameNonVC c c := ⟨rfl, rfl, rfl, rfl⟩

theorem sameNonVC_symm {a b : CompRec} (h : sameNonVC a b) : sameNonVC b a :=
  ⟨h.1.symm, h.2.1.symm, h.2.2.1.symm, h.2.2.2.symm⟩

theorem sameNonVC_trans {a b c : CompRec} (h1 : sameNonVC a b) (h2 : sameNonVC b c) :
    sameNonVC a c :=
  ⟨h1.1.trans h2.1, h1.2.1.trans h2.2.1, h1.2.2.1.trans h2.2.2.1, h1.2.2.2.trans h2.2.2.2⟩

theorem sameNonVC_incVC (c : CompRec) : sameNonVC c (incVC c) := ⟨rfl, rfl, rfl, rfl⟩

theorem sameNonVC_resetVC (c : CompRec) : sameNonVC (resetVC c) c := ⟨rfl, rfl, rfl, rfl⟩

theorem keys_update (acc : List (String × CompRec)) (k : String) :
    (acc.map (fun e => if e.1 = k then (e.1, incVC e.2) else e)).map Prod.fst
      = acc.map Prod.fst := by
  induction acc with
  | nil => rfl
  | cons e t ih => by_cases h : e.1 = k <;> simp [h, ih]

/-- Own-property keys of the reduce accumulator: in insertion order, they are
the first occurrences of the non-prototype grouping keys. -/
theorem fold_keys (l : List CompRec) : ∀ acc : List (String × CompRec),
    (l.foldl upsert acc).map Prod.fst
      = acc.map Prod.fst
        ++ dedupFrom (acc.map Prod.fst)
            ((l.map groupKey).filter (fun k => !isProtoKey k)) := by
  induction l with
  | nil => intro acc; simp [dedupFrom]
  | cons c t ih =>
    intro acc
    by_cases hp : isProtoKey (groupKey c) = true
    · have hu : upsert acc c = acc := by simp [upsert, hp]
      simp only [List.foldl_cons, hu, List.map_cons, List.filter_cons, hp]
      simpa using ih acc
    · have hpf : isProtoKey (groupKey c) = false := by
        simpa using hp
      by_cases hm : groupKey c ∈ acc.map Prod.fst
      · have hu : upsert acc c
            = acc.map (fun e => if e.1 = groupKey c then (e.1, incVC e.2) else e) := by
          simp [upsert, hp, hm]
        rw [List.foldl_cons, hu, ih, keys_update]
        simp [List.filter_cons, hpf, dedupFrom, hm]
      · have hu : upsert acc c = acc ++ [(groupKey c, resetVC c)] := by
          simp [upsert, hp, hm]
        rw [List.foldl_cons, hu, ih]
        simp [List.filter_cons, hpf, dedupFrom, hm, List.map_append]

/-- Every stored entry's key is the grouping key of its stored record. -/
theorem fold_entry_key (l : List CompRec) : ∀ acc : List (String × CompRec),
    (∀ e ∈ acc, groupKey e.2 = e.1) →
    ∀ e ∈ l.foldl upsert acc, groupKey e.2 = e.1 := by
  induction l with
  | nil => intro acc h e he; exact h e he
  | cons c t ih =>
    intro acc h e he
    refine ih (upsert acc c) ?_ e he
    intro e' he'
    by_cases hp : isProtoKey (groupKey c) = true
    · have hu : upsert acc c = acc := by simp [upsert, hp]
      exact h e' (hu ▸ he')
    · by_cases hm : groupKey c ∈ acc.map Prod.fst
      · have hu : upsert acc c
            = acc.map (fun e => if e.1 = groupKey c then (e.1, incVC e.2) else e) := by
          simp [upsert, hp, hm]
        rw [hu] at he'
        obtain ⟨e0, he0, heq⟩ := List.mem_map.mp he'
        by_cases h0 : e0.1 = groupKey c
        · rw [if_pos h0] at heq
          rw [← heq]
          simpa [groupKey_incVC] using h e0 he0
        · rw [if_neg h0] at heq
          exact heq ▸ h e0 he0
      · have hu : upsert acc c = acc ++ [(groupKey c, resetVC c)] := by
          simp [upsert, hp, hm]
        rw [hu] at he'
        rcases List.mem_append.mp he' with h1 | h1
        · exact h e' h1
        · have : e' = (groupKey c, resetVC c) := by simpa using h1
          rw [this]
          exact groupKey_resetVC c

theorem dedupFrom_not_seen : ∀ (ks seen : List String) (k : String),
    k ∈ dedupFrom seen ks → k ∉ seen := by
  intro ks
  induction ks with
  | nil => intro seen k h; simp [dedupFrom] at h
  | cons a t ih =>
    intro seen k h
    by_cases ha : a ∈ seen
    · exact ih seen k (by simpa [dedupFrom, ha] using h)
    · simp only [dedupFrom, if_neg ha, List.mem_cons] at h
      rcases h with rfl | h
      · exact ha
      · intro hk
        exact ih (seen ++ [a]) k h (List.mem_append_left _ hk)

theorem dedupFrom_subset : ∀ (ks seen : List String) (k : String),
    k ∈ dedupFrom seen ks → k ∈ ks := by
  intro ks
  induction ks with
  | nil => intro seen k h; simp [dedupFrom] at h
  | cons a t ih =>
    intro seen k h
    by_cases ha : a ∈ seen
    · exact List.mem_cons_of_mem a (ih seen k (by simpa [dedupFrom, ha] using h))
    · simp only [dedupFrom, if_neg ha, List.mem_cons] at h
      rcases h with rfl | h
      · exact List.mem_cons_self _ _
      · exact List.mem_cons_of_mem a (ih (seen ++ [a]) k h)

theorem dedupFrom_nodup : ∀ (ks seen : List String), (dedupFrom seen ks).Nodup := by
  intro ks
  induction ks with
  | nil => intro seen; simp [dedupFrom]
  | cons a t ih =>
    intro seen
    by_cases ha : a ∈ seen
    · simpa [dedupFrom, ha] using ih seen
    · rw [dedupFrom, if_neg ha, List.nodup_cons]
      refine ⟨fun hmem => ?_, ih (seen ++ [a])⟩
      exact dedupFrom_not_seen t (seen ++ [a]) a hmem (List.mem_append_right _ (List.mem_singleton.mpr rfl))

/-- Folding records with pairwise-distinct, fresh, non-prototype grouping
keys just appends one reset entry per record. -/
theorem fold_fresh (l : List CompRec) : ∀ acc : List (String × CompRec),
    (l.map groupKey).Nodup →
    (∀ c ∈ l, groupKey c ∉ acc.map Prod.fst) →
    (∀ c ∈ l, isProtoKey (groupKey c) = false) →
    l.foldl upsert acc = acc ++ l.map (fun c => (groupKey c, resetVC c)) := by
  induction l with
  | nil => intro acc _ _ _; simp
  | cons c t ih =>
    intro acc hnd hfresh hproto
    have hnd' := List.nodup_cons.mp
      (show (groupKey c :: t.map groupKey).Nodup from hnd)
    have hp : isProtoKey (groupKey c) = false := hproto c (List.mem_cons_self _ _)
    have hm : groupKey c ∉ acc.map Prod.fst := hfresh c (List.mem_cons_self _ _)
    have hu : upsert acc c = acc ++ [(groupKey c, resetVC c)] := by
      simp [upsert, hp, hm]
    rw [List.foldl_cons, hu,
      ih (acc ++ [(groupKey c, resetVC c)]) hnd'.2 ?fr
        (fun x hx => hproto x (List.mem_cons_of_mem c hx))]
    · simp
    case fr =>
      intro x hx
      have hx1 : groupKey x ∉ acc.map Prod.fst :=
        hfresh x (List.mem_cons_of_mem c hx)
      have hx2 : groupKey x ≠ groupKey c := by
        intro he
        exact hnd'.1 (he ▸ List.mem_map_of_mem groupKey hx)
      simp [List.map_append, hx1, hx2]

/-- `Object.values` enumeration is a permutation of the own entries. -/
theorem objectEntries_perm (es : List (String × CompRec)) :
    List.Perm (objectEntries es) es :=
  ((List.perm_insertionSort entLE _).append_right _).trans
    (List.filter_append_perm _ es)

theorem entLE_map_fst {f : CompRec → CompRec} (a b : String × CompRec)
    (h : entLE a b) : entLE (a.1, f a.2) (b.1, f b.2) := h

/-- `Object.values` applied to an entry list already laid out as
"sorted index keys, then non-index keys" returns it unchanged. -/
theorem objectEntries_of_parts (A B : List (String × CompRec))
    (hAp : ∀ e ∈ A, isArrayIndexKey e.1 = true)
    (hBp : ∀ e ∈ B, isArrayIndexKey e.1 = false)
    (hs : List.Sorted entLE A) :
    objectEntries (A ++ B) = A ++ B := by
  unfold objectEntries
  have h1 : (A ++ B).filter (fun e => isArrayIndexKey e.1) = A := by
    rw [List.filter_append, List.filter_eq_self.mpr hAp,
      List.filter_eq_nil_iff.mpr (fun a ha h => by simp [hBp a ha] at h)]
    simp
  have h2 : (A ++ B).filter (fun e => !isArrayIndexKey e.1) = B := by
    rw [List.filter_append]
    rw [List.filter_eq_nil_iff.mpr ?x1, List.filter_eq_self.mpr ?x2]
    · simp
    case x1 => intro a ha h; simp [hAp a ha] at h
    case x2 => intro a ha; simp [hBp a ha]
  rw [h1, h2, hs.insertionSort_eq]

/-- Re-enumerating a value-mapped enumeration changes nothing: the key layout
`Object.values` produces is a fixed point of `Object.values`. -/
theorem objectEntries_mapVal_fix (f : CompRec → CompRec)
    (es : List (String × CompRec)) :
    objectEntries ((objectEntries es).map (fun e => (e.1, f e.2)))
      = (objectEntries es).map (fun e => (e.1, f e.2)) := by
  have hOE : objectEntries es
      = List.insertionSort entLE (es.filter (fun e => isArrayIndexKey e.1))
        ++ es.filter (fun e => !isArrayIndexKey e.1) := rfl
  rw [hOE, List.map_append]
  refine objectEntries_of_parts _ _ ?_ ?_ ?_
  · intro x hx
    obtain ⟨e, he, rfl⟩ := List.mem_map.mp hx
    have : e ∈ es.filter (fun e => isArrayIndexKey e.1) :=
      (List.perm_insertionSort entLE _).mem_iff.mp he
    exact (List.mem_filter.mp this).2
  · intro x hx
    obtain ⟨e, he, rfl⟩ := List.mem_map.mp hx
    have := (List.mem_filter.mp he).2
    simpa using this
  · exact List.Pairwise.map _ entLE_map_fst (List.sorted_insertionSort entLE _)

theorem keys_filter_index (es : List (String × CompRec)) :
    (es.filter (fun e => isArrayIndexKey e.1)).map Prod.fst
      = (es.map Prod.fst).filter isArrayIndexKey := by
  induction es with
  | nil => rfl
  | cons e t ih =>
    by_cases h : isArrayIndexKey e.1 <;>
      simp [List.filter_cons, h, ih]

theorem keys_filter_nonindex (es : List (String × CompRec)) :
    (es.filter (fun e => !isArrayIndexKey e.1)).map Prod.fst
      = (es.map Prod.fst).filter (fun k => !isArrayIndexKey k) := by
  induction es with
  | nil => rfl
  | cons e t ih =>
    by_cases h : isArrayIndexKey e.1 <;>
      simp [List.filter_cons, h, ih]

theorem keys_orderedInsert (a : String × CompRec) (es : List (String × CompRec)) :
    (List.orderedInsert entLE a es).map Prod.fst
      = List.orderedInsert keyLE a.1 (es.map Prod.fst) := by
  induction es with
  | nil => rfl
  | cons b t ih =>
    by_cases h : entLE a b
    · rw [List.orderedInsert, if_pos h, List.map_cons, List.map_cons,
        List.orderedInsert, if_pos (show keyLE a.1 b.1 from h)]
    · rw [List.orderedInsert, if_neg h, List.map_cons, List.map_cons,
        List.orderedInsert, if_neg (show ¬keyLE a.1 b.1 from h), ih]

theorem keys_insertionSort (es : List (String × CompRec)) :
    (List.insertionSort entLE es).map Prod.fst
      = List.insertionSort keyLE (es.map Prod.fst) := by
  induction es with
  | nil => rfl
  | cons a t ih =>
    rw [List.insertionSort, keys_orderedInsert, ih, List.map_cons,
      List.insertionSort]

/-- The key sequence of a grouped list, as `Object.values` lays it out. -/
theorem groupBySet_keys (items : List CompRec) :
    (groupBySet items).map groupKey
      = jsEnumOrder (dedupFrom []
          ((items.map groupKey).filter (fun k => !isProtoKey k))) := by
  have hkeys : (items.foldl upsert []).map Prod.fst
      = dedupFrom [] ((items.map groupKey).filter (fun k => !isProtoKey k)) := by
    simpa using fold_keys items []
  have hagree : ∀ e ∈ objectEntries (items.foldl upsert []), groupKey e.2 = e.1 := by
    intro e he
    exact fold_entry_key items [] (by simp) e
      ((objectEntries_perm (items.foldl upsert [])).mem_iff.mp he)
  calc (groupBySet items).map groupKey
      = (objectEntries (items.foldl upsert [])).map (fun e => groupKey e.2) := by
        simp [groupBySet, List.map_map]
    _ = (objectEntries (items.foldl upsert [])).map Prod.fst :=
        List.map_congr_left hagree
    _ = jsEnumOrder ((items.foldl upsert []).map Prod.fst) := by
        unfold objectEntries jsEnumOrder
        rw [List.map_append, keys_insertionSort, keys_filter_index,
          keys_filter_nonindex]
    _ = jsEnumOrder (dedupFrom []
          ((items.map groupKey).filter (fun k => !isProtoKey k))) := by rw [hkeys]

theorem jsEnumOrder_perm (ks : List String) : List.Perm (jsEnumOrder ks) ks :=
  ((List.perm_insertionSort keyLE _).append_right _).trans
    (List.filter_append_perm _ ks)

theorem groupBySet_nodup_keys (items : List CompRec) :
    ((groupBySet items).map groupKey).Nodup := by
  rw [groupBySet_keys]
  exact (jsEnumOrder_perm _).nodup_iff.mpr (dedupFrom_nodup _ _)

theorem groupBySet_nonproto (items : List CompRec) :
    ∀ c ∈ groupBySet items, isProtoKey (groupKey c) = false := by
  intro c hc
  have h1 : groupKey c ∈ (groupBySet items).map groupKey :=
    List.mem_map_of_mem groupKey hc
  rw [groupBySet_keys] at h1
  have h2 := (jsEnumOrder_perm _).mem_iff.mp h1
  have h3 := dedupFrom_subset _ _ _ h2
  have h4 := (List.mem_filter.mp h3).2
  simpa using h4

/-- C4 counterexample: `Object.values` enumerates the array-index-like key
"5" before the earlier-inserted key "A", so the grouped result is not in
first-occurrence order of the grouping key. -/
theorem claim_C4_counterexample :
    (groupBySet c4ex).map groupKey = ["5", "A"]
    ∧ dedupFrom [] (c4ex.map groupKey) = ["A", "5"]
    ∧ (groupBySet c4ex).map groupKey ≠ dedupFrom [] (c4ex.map groupKey) := by
  refine ⟨by decide, by decide, by decide⟩

/-- C4 (amended): the grouped entries list the distinct non-prototype
grouping keys in first-occurrence order, except that keys which are
canonical array indices (decimal numerals below 2^32 - 1) are enumerated
first, in ascending numeric order. -/
theorem claim_C4_amended (items : List CompRec) :
    (groupBySet items).map groupKey
      = jsEnumOrder (dedupFrom []
          ((items.map groupKey).filter (fun k => !isProtoKey k))) :=
  groupBySet_keys items

/-- C5 counterexample: grouping the already-grouped list again resets the
entry's `variantCount` from 2 to 1 (the `variantCount: 1` in the object
literal overrides the spread), so re-grouping is not the identity. -/
theorem claim_C5_counterexample :
    (groupBySet c5ex).map (fun c => c.variantCount) = [some 2]
    ∧ groupBySet (groupBySet c5ex) ≠ groupBySet c5ex := by
  refine ⟨by decide, by decide⟩

/-- C5 (amended): re-grouping a grouped list yields the same entries in the
same order, except that every entry's `variantCount` is reset to 1 rather
than left unchanged. -/
theorem claim_C5_amended (items : List CompRec) :
    groupBySet (groupBySet items) = (groupBySet items).map resetVC := by
  have hagree : ∀ e ∈ objectEntries (items.foldl upsert []), groupKey e.2 = e.1 := by
    intro e he
    exact fold_entry_key items [] (by simp) e
      ((objectEntries_perm (items.foldl upsert [])).mem_iff.mp he)
  have h1 : (groupBySet items).foldl upsert []
      = (groupBySet items).map (fun c => (groupKey c, resetVC c)) := by
    have := fold_fresh (groupBySet items) [] (groupBySet_nodup_keys items)
      (fun c _ => by simp) (groupBySet_nonproto items)
    simpa using this
  have h2 : (groupBySet items).map (fun c => (groupKey c, resetVC c))
      = (objectEntries (items.foldl upsert [])).map (fun e => (e.1, resetVC e.2)) := by
    show ((objectEntries (items.foldl upsert [])).map Prod.snd).map
        (fun c => (groupKey c, resetVC c)) = _
    rw [List.map_map]
    refine List.map_congr_left ?_
    intro e he
    show (groupKey e.2, resetVC e.2) = (e.1, resetVC e.2)
    rw [hagree e he]
  calc groupBySet (groupBySet items)
      = (objectEntries ((groupBySet items).foldl upsert [])).map Prod.snd := rfl
    _ = (objectEntries ((objectEntries (items.foldl upsert [])).map
          (fun e => (e.1, resetVC e.2)))).map Prod.snd := by rw [h1, h2]
    _ = ((objectEntries (items.foldl upsert [])).map
          (fun e => (e.1, resetVC e.2))).map Prod.snd := by
        rw [objectEntries_mapVal_fix]
    _ = (groupBySet items).map resetVC := by
        show _ = ((objectEntries (items.foldl upsert [])).map Prod.snd).map resetVC
        rw [List.map_map, List.map_map]
        rfl

theorem map_update_id (acc : List (String × CompRec)) (k : String)
    (h : ∀ e ∈ acc, e.1 ≠ k) :
    acc.map (fun e => if e.1 = k then (e.1, incVC e.2) else e) = acc := by
  have h2 : ∀ e ∈ acc, (if e.1 = k then (e.1, incVC e.2) else e) = e :=
    fun e he => if_neg (h e he)
  rw [List.map_congr_left h2, List.map_id']

theorem sum_update (acc : List (String × CompRec)) (k : String)
    (hnd : (acc.map Prod.fst).Nodup) (hk : k ∈ acc.map Prod.fst)
    (hvc : ∀ e ∈ acc, e.2.variantCount.isSome) :
    ((acc.map (fun e => if e.1 = k then (e.1, incVC e.2) else e)).map
        (fun e => e.2.variantCount.getD 0)).sum
      = (acc.map (fun e => e.2.variantCount.getD 0)).sum + 1 := by
  induction acc with
  | nil => simp at hk
  | cons e t ih =>
    have hnd' := List.nodup_cons.mp (show (e.1 :: t.map Prod.fst).Nodup from hnd)
    by_cases h : e.1 = k
    · have htk : ∀ x ∈ t, x.1 ≠ k := by
        intro x hx he
        exact hnd'.1 (h ▸ he ▸ List.mem_map_of_mem Prod.fst hx)
      obtain ⟨n, hn⟩ := Option.isSome_iff_exists.mp (hvc e (List.mem_cons_self _ _))
      rw [List.map_cons, if_pos h, List.map_cons, map_update_id t k htk,
        List.map_cons, List.sum_cons, List.sum_cons]
      show (incVC e.2).variantCount.getD 0 + _ = _
      rw [show (incVC e.2).variantCount = e.2.variantCount.map (· + 1) from rfl, hn]
      simp
      omega
    · have hk2 : k ∈ e.1 :: t.map Prod.fst := by simpa using hk
      have hk' : k ∈ t.map Prod.fst := by
        rcases List.mem_cons.mp hk2 with h1 | h1
        · exact absurd h1.symm h
        · exact h1
      rw [List.map_cons, if_neg h, List.map_cons, List.sum_cons, List.map_cons,
        List.sum_cons, ih hnd'.2 hk' (fun x hx => hvc x (List.mem_cons_of_mem e hx))]
      omega

theorem fold_sum (l : List CompRec) : ∀ acc : List (String × CompRec),
    (acc.map Prod.fst).Nodup →
    (∀ e ∈ acc, e.2.variantCount.isSome) →
    (∀ c ∈ l, isProtoKey (groupKey c) = false) →
    ((l.foldl upsert acc).map (fun e => e.2.variantCount.getD 0)).sum
      = (acc.map (fun e => e.2.variantCount.getD 0)).sum + l.length := by
  induction l with
  | nil => intro acc _ _ _; simp
  | cons c t ih =>
    intro acc hnd hvc hpr
    have hp := hpr c (List.mem_cons_self _ _)
    have hpr' : ∀ x ∈ t, isProtoKey (groupKey x) = false :=
      fun x hx => hpr x (List.mem_cons_of_mem c hx)
    by_cases hm : groupKey c ∈ acc.map Prod.fst
    · have hu : upsert acc c
          = acc.map (fun e => if e.1 = groupKey c then (e.1, incVC e.2) else e) := by
        simp [upsert, hp, hm]
      have hnd2 : ((upsert acc c).map Prod.fst).Nodup := by
        rw [hu, keys_update]; exact hnd
      have hvc2 : ∀ e ∈ upsert acc c, e.2.variantCount.isSome := by
        rw [hu]
        intro e he
        obtain ⟨e0, he0, heq⟩ := List.mem_map.mp he
        by_cases h0 : e0.1 = groupKey c
        · rw [if_pos h0] at heq
          rw [← heq]
          show ((incVC e0.2).variantCount).isSome
          rw [show (incVC e0.2).variantCount = e0.2.variantCount.map (· + 1) from rfl]
          obtain ⟨n, hn⟩ := Option.isSome_iff_exists.mp (hvc e0 he0)
          simp [hn]
        · rw [if_neg h0] at heq
          exact heq ▸ hvc e0 he0
      rw [List.foldl_cons, ih (upsert acc c) hnd2 hvc2 hpr']
      rw [hu, sum_update acc _ hnd hm hvc]
      simp
      omega
    · have hu : upsert acc c = acc ++ [(groupKey c, resetVC c)] := by
        simp [upsert, hp, hm]
      have hnd2 : ((upsert acc c).map Prod.fst).Nodup := by
        rw [hu, List.map_append]
        simp [List.nodup_append, hnd, hm]
      have hvc2 : ∀ e ∈ upsert acc c, e.2.variantCount.isSome := by
        rw [hu]
        intro e he
        rcases List.mem_append.mp he with h1 | h1
        · exact hvc e h1
        · have : e = (groupKey c, resetVC c) := by simpa using h1
          rw [this]
          rfl
      rw [List.foldl_cons, ih (upsert acc c) hnd2 hvc2 hpr', hu]
      simp [resetVC]
      omega

theorem find?_skip (c : CompRec) (t : List CompRec) (k : String)
    (h : (groupKey c == k) = false) :
    List.find? (fun x => groupKey x == k) (c :: t)
      = List.find? (fun x => groupKey x == k) t := by
  simp [List.find?_cons, h]

theorem find?_here (c : CompRec) (t : List CompRec) (k : String)
    (h : (groupKey c == k) = true) :
    List.find? (fun x => groupKey x == k) (c :: t) = some c := by
  simp [List.find?_cons, h]

/-- Provenance of a grouped entry: it carries the non-`variantCount` fields
of the first folded record whose grouping key matches, and a positive count
(unless it was already in the accumulator). -/
theorem fold_trace (l : List CompRec) : ∀ (acc : List (String × CompRec))
    (q : String × CompRec), q ∈ l.foldl upsert acc →
    (∃ e ∈ acc, e.1 = q.1 ∧ sameNonVC e.2 q.2 ∧
      ∀ n, e.2.variantCount = some n → ∃ m, q.2.variantCount = some m ∧ n ≤ m)
    ∨ (q.1 ∉ acc.map Prod.fst ∧ isProtoKey q.1 = false
      ∧ (∃ c, l.find? (fun x => groupKey x == q.1) = some c ∧ sameNonVC q.2 c)
      ∧ ∃ m, q.2.variantCount = some m ∧ 1 ≤ m) := by
  induction l with
  | nil =>
    intro acc q hq
    exact Or.inl ⟨q, hq, rfl, sameNonVC_refl _, fun n hn => ⟨n, hn, Nat.le_refl n⟩⟩
  | cons c t ih =>
    intro acc q hq
    rcases ih (upsert acc c) q hq with hL | hR
    · obtain ⟨e, he, hek, hsame, hmono⟩ := hL
      by_cases hp : isProtoKey (groupKey c) = true
      · have hu : upsert acc c = acc := by simp [upsert, hp]
        exact Or.inl ⟨e, hu ▸ he, hek, hsame, hmono⟩
      · by_cases hm : groupKey c ∈ acc.map Prod.fst
        · have hu : upsert acc c
              = acc.map (fun x => if x.1 = groupKey c then (x.1, incVC x.2) else x) := by
            simp [upsert, hp, hm]
          rw [hu] at he
          obtain ⟨e0, he0, heq⟩ := List.mem_map.mp he
          by_cases h0 : e0.1 = groupKey c
          · rw [if_pos h0] at heq
            refine Or.inl ⟨e0, he0, ?_, ?_, ?_⟩
            · rw [← heq] at hek
              exact hek
            · refine sameNonVC_trans (sameNonVC_incVC e0.2) ?_
              rw [← heq] at hsame
              exact hsame
            · intro n hn
              have hinc : e.2.variantCount = some (n + 1) := by
                rw [← heq]
                show (incVC e0.2).variantCount = some (n + 1)
                rw [show (incVC e0.2).variantCount = e0.2.variantCount.map (· + 1) from rfl,
                  hn]
                rfl
              obtain ⟨m, hqm, hle⟩ := hmono (n + 1) hinc
              exact ⟨m, hqm, Nat.le_of_succ_le hle⟩
          · rw [if_neg h0] at heq
            subst heq
            exact Or.inl ⟨e0, he0, hek, hsame, hmono⟩
        · have hu : upsert acc c = acc ++ [(groupKey c, resetVC c)] := by
            simp [upsert, hp, hm]
          rw [hu] at he
          rcases List.mem_append.mp he with h1 | h1
          · exact Or.inl ⟨e, h1, hek, hsame, hmono⟩
          · have he2 : e = (groupKey c, resetVC c) := by simpa using h1
            subst he2
            have hkq : groupKey c = q.1 := hek
            refine Or.inr ⟨?_, ?_, ⟨c, ?_, ?_⟩, ?_⟩
            · rw [← hkq]
              exact hm
            · rw [← hkq]
              simpa using hp
            · exact find?_here c t q.1 (by simp [hkq])
            · exact sameNonVC_trans (sameNonVC_symm hsame) (sameNonVC_resetVC c)
            · obtain ⟨m, hqm, hle⟩ := hmono 1 rfl
              exact ⟨m, hqm, hle⟩
    · obtain ⟨hnot, hproto, ⟨c0, hfind, hsame⟩, hvc⟩ := hR
      by_cases hp : isProtoKey (groupKey c) = true
      · have hu : upsert acc c = acc := by simp [upsert, hp]
        rw [hu] at hnot
        have hne : (groupKey c == q.1) = false := by
          rw [beq_eq_false_iff_ne]
          intro hbe
          rw [hbe, hproto] at hp
          exact Bool.false_ne_true hp
        refine Or.inr ⟨hnot, hproto, ⟨c0, ?_, hsame⟩, hvc⟩
        rw [find?_skip c t q.1 hne]
        exact hfind
      · by_cases hm : groupKey c ∈ acc.map Prod.fst
        · have hu : upsert acc c
              = acc.map (fun x => if x.1 = groupKey c then (x.1, incVC x.2) else x) := by
            simp [upsert, hp, hm]
          rw [hu, keys_update] at hnot
          have hne : (groupKey c == q.1) = false := by
            rw [beq_eq_false_iff_ne]
            intro hbe
            exact hnot (hbe ▸ hm)
          refine Or.inr ⟨hnot, hproto, ⟨c0, ?_, hsame⟩, hvc⟩
          rw [find?_skip c t q.1 hne]
          exact hfind
        · have hu : upsert acc c = acc ++ [(groupKey c, resetVC c)] := by
            simp [upsert, hp, hm]
          rw [hu, List.map_append] at hnot
          have hnot1 : q.1 ∉ acc.map Prod.fst :=
            fun hmem => hnot (List.mem_append_left _ hmem)
          have hne : (groupKey c == q.1) = false := by
            rw [beq_eq_false_iff_ne]
            intro hbe
            exact hnot (List.mem_append_right _ (by simp [hbe]))
          refine Or.inr ⟨hnot1, hproto, ⟨c0, ?_, hsame⟩, hvc⟩
          rw [find?_skip c t q.1 hne]
          exact hfind

/-- C10 counterexample: a record grouped under the key "toString" hits the
inherited `Object.prototype.toString`, so `!acc[key]` is false, the entry is
never stored, and the grouped output is empty — the variant counts sum to 0,
not to the input length 1. -/
theorem claim_C10_counterexample :
    groupBySet c10ex = []
    ∧ ((groupBySet c10ex).map (fun c => c.variantCount.getD 0)).sum ≠ c10ex.length := by
  refine ⟨by decide, by decide⟩

/-- C10 (amended): when no grouping key collides with an `Object.prototype`
member name, grouping partitions its input — the variant counts sum to the
input length, every entry's count is at least 1, and every entry carries the
non-`variantCount` fields of the first input record with its grouping key. -/
theorem claim_C10_amended (items : List CompRec)
    (hp : ∀ c ∈ items, isProtoKey (groupKey c) = false) :
    ((groupBySet items).map (fun c => c.variantCount.getD 0)).sum = items.length
    ∧ ∀ e ∈ groupBySet items,
        (∃ m, e.variantCount = some m ∧ 1 ≤ m)
        ∧ ∃ c, items.find? (fun x => groupKey x == groupKey e) = some c
            ∧ sameNonVC e c := by
  constructor
  · calc ((groupBySet items).map (fun c => c.variantCount.getD 0)).sum
        = ((objectEntries (items.foldl upsert [])).map
            (fun e => e.2.variantCount.getD 0)).sum := by
          simp [groupBySet, List.map_map]
          rfl
      _ = ((items.foldl upsert []).map (fun e => e.2.variantCount.getD 0)).sum :=
          ((objectEntries_perm _).map _).sum_eq
      _ = items.length := by simpa using fold_sum items [] (by simp) (by simp) hp
  · intro e he
    obtain ⟨en, hen, rfl⟩ := List.mem_map.mp he
    have hen0 : en ∈ items.foldl upsert [] := (objectEntries_perm _).mem_iff.mp hen
    rcases fold_trace items [] en hen0 with ⟨q, hq, _⟩ | ⟨_, _, ⟨c, hfind, hsame⟩, m, hm, hle⟩
    · exact absurd hq (List.not_mem_nil q)
    · constructor
      · exact ⟨m, hm, hle⟩
      · refine ⟨c, ?_, hsame⟩
        have hk : groupKey en.2 = en.1 := fold_entry_key items [] (by simp) en hen0
        rw [hk]
        exact hfind

/-- Witness for the amended C10: the variant counts of the grouped witness
input sum to its length. -/
theorem claim_C10_amended_witness :
    ((groupBySet c10wit).map (fun c => c.variantCount.getD 0)).sum = c10wit.length :=
  (claim_C10_amended c10wit (by decide)).1

/-- C6: a notification section with exactly 20 items shows all 20 with no
omitted-count line; with 21 or more it shows exactly the first 20 plus one
line reporting exactly length - 20 omitted; an empty item list yields no
section at all. -/
theorem claim_C6 (label : String) (items : List String) :
    (items.length = 20 →
      buildSection label items
        = some (label ++ "\n"
            ++ String.intercalate "\n"
                (items.map (fun t => "β€Ά " ++ t))))
    ∧ (20 < items.length →
      buildSection label items
        = some (label ++ "\n"
            ++ String.intercalate "\n"
                ((items.take 20).map (fun t => "β€Ά " ++ t))
            ++ ("\nβ€Ά _...μ™Έ "
                ++ toString (items.length - 20) ++ "κ±΄_")))
    ∧ (items = [] → buildSection label items = none) := by
  refine ⟨fun h20 => ?_, fun h21 => ?_, fun hnil => ?_⟩
  · have hne : ¬ items.length = 0 := by omega
    have htake : (items.map (fun t => "β€Ά " ++ t)).take 20
        = items.map (fun t => "β€Ά " ++ t) :=
      List.take_of_length_le (by simp [h20])
    simp [buildSection, hne, htake, h20, MAX_ITEMS]
  · have hne : ¬ items.length = 0 := by omega
    simp [buildSection, hne, h21, MAX_ITEMS]
  · subst hnil
    simp [buildSection]

/-- Witness for C6 at an exactly-20-item section, a 21-item section and an
empty section. -/
theorem claim_C6_witness :
    buildSection "L" c6a
      = some ("L" ++ "\n"
          ++ String.intercalate "\n"
              (c6a.map (fun t => "β€Ά " ++ t)))
    ∧ buildSection "L" c6b
      = some ("L" ++ "\n"
          ++ String.intercalate "\n"
              ((c6b.take 20).map (fun t => "β€Ά " ++ t))
          ++ ("\nβ€Ά _...μ™Έ "
              ++ toString (c6b.length - 20) ++ "κ±΄_"))
    ∧ buildSection "L" [] = none :=
  ⟨(claim_C6 "L" c6a).1 (by decide), (claim_C6 "L" c6b).2.1 (by decide),
    (claim_C6 "L" []).2.2 rfl⟩

theorem matchesHeading_nil : matchesHeading [] = false := rfl

theorem startFlagAt_succ (b : Bool) (c : Char) (rest : List Char) (i : Nat) :
    startFlagAt b (c :: rest) (i + 1) = startFlagAt (isLineTerm c) rest i := by
  cases i with
  | zero => rfl
  | succ j => rfl

theorem headingAtFrom_succ (b : Bool) (c : Char) (rest : List Char) (i : Nat) :
    headingAtFrom b (c :: rest) (i + 1) = headingAtFrom (isLineTerm c) rest i := by
  unfold headingAtFrom
  rw [startFlagAt_succ]
  rfl

theorem headingAtFrom_zero (b : Bool) (l : List Char) :
    headingAtFrom b l 0 = (b && matchesHeading l) := rfl

/-- `findHeading` returns exactly the least declarative match position, and
`none` exactly when there is no match. -/
theorem findHeading_spec (l : List Char) : ∀ b : Bool,
    (∀ i, findHeading l b = some i →
      headingAtFrom b l i = true ∧ ∀ j, j < i → headingAtFrom b l j = false)
    ∧ (findHeading l b = none → ∀ i, headingAtFrom b l i = false) := by
  induction l with
  | nil =>
    intro b
    constructor
    · intro i h
      simp [findHeading] at h
    · intro _ i
      cases i with
      | zero => simp [headingAtFrom_zero, matchesHeading_nil]
      | succ j => simp [headingAtFrom, startFlagAt, matchesHeading_nil]
  | cons c rest ih =>
    intro b
    by_cases hM : (b && matchesHeading (c :: rest)) = true
    · have hFH : findHeading (c :: rest) b = some 0 := by
        simp [findHeading, hM]
      constructor
      · intro i h
        rw [hFH] at h
        obtain rfl : (0 : Nat) = i := Option.some.inj h
        refine ⟨hM, fun j hj => absurd hj (by omega)⟩
      · intro h
        rw [hFH] at h
        simp at h
    · have hM' : (b && matchesHeading (c :: rest)) = false := by
        simpa using hM
      have hFH : findHeading (c :: rest) b
          = (findHeading rest (isLineTerm c)).map (· + 1) := by
        simp [findHeading, hM']
      constructor
      · intro i h
        rw [hFH] at h
        obtain ⟨i', hi', hadd⟩ := Option.map_eq_some'.mp h
        obtain ⟨h1, h2⟩ := (ih (isLineTerm c)).1 i' hi'
        subst hadd
        constructor
        · rw [headingAtFrom_succ]
          exact h1
        · intro j hj
          cases j with
          | zero => rw [headingAtFrom_zero]; exact hM'
          | succ j' =>
            rw [headingAtFrom_succ]
            exact h2 j' (by omega)
      · intro h i
        rw [hFH] at h
        have hrest : findHeading rest (isLineTerm c) = none := by
          cases hfr : findHeading rest (isLineTerm c) with
          | none => rfl
          | some v => rw [hfr] at h; simp at h
        cases i with
        | zero => rw [headingAtFrom_zero]; exact hM'
        | succ j =>
          rw [headingAtFrom_succ]
          exact (ih (isLineTerm c)).2 hrest j

/-- C7 counterexample: the only version heading of `c7content` starts at
position 15, but the insertion regex `/^## \d/m` already matches the line
"## 2 notes" at position 4, so the new section is not inserted before the
first version heading. -/
theorem claim_C7_counterexample :
    ((List.range c7content.length).filter (fun i => versionHeadingAt c7content i))
        = [15]
    ∧ updateChangelog c7content c7md
        ≠ c7content.take 15 ++ c7md ++ c7content.drop 15
    ∧ updateChangelog c7content c7md
        = c7content.take 4 ++ c7md ++ c7content.drop 4 := by
  refine ⟨by decide, by decide, by decide⟩

/-- C7 (amended): the new section is inserted immediately before the first
line that starts with `## ` followed by a digit (not necessarily a full
`## major.minor.patch` version heading), all other content unchanged; if no
such line exists, the new section is appended after trimming trailing
whitespace. -/
theorem claim_C7_amended (content md : List Char) :
    (∀ j, findHeading content true = some j →
      headingAtFrom true content j = true
      ∧ (∀ k, k < j → headingAtFrom true content k = false)
      ∧ updateChangelog content md = content.take j ++ md ++ content.drop j)
    ∧ (findHeading content true = none →
      (∀ i, headingAtFrom true content i = false)
      ∧ updateChangelog content md = jsTrimEnd content ++ '\n' :: '\n' :: md) := by
  constructor
  · intro j hj
    obtain ⟨h1, h2⟩ := (findHeading_spec content true).1 j hj
    refine ⟨h1, h2, ?_⟩
    simp [updateChangelog, hj]
  · intro h
    refine ⟨(findHeading_spec content true).2 h, ?_⟩
    simp [updateChangelog, h]

/-- Witness for the amended C7: insertion before the heading at position 6 of
`c7wit`, and trim-and-append on the heading-free `c7nh`. -/
theorem claim_C7_witness :
    headingAtFrom true c7wit 6 = true
    ∧ updateChangelog c7wit c7md = c7wit.take 6 ++ c7md ++ c7wit.drop 6
    ∧ updateChangelog c7nh c7md = jsTrimEnd c7nh ++ '\n' :: '\n' :: c7md :=
  ⟨((claim_C7_amended c7wit c7md).1 6 (by decide)).1,
    ((claim_C7_amended c7wit c7md).1 6 (by decide)).2.2,
    ((claim_C7_amended c7nh c7md).2 (by decide)).2⟩

/-- C3: `hasAdded` holds exactly when some created variable, style or
(ungrouped) component exists, `hasDeleted` likewise for the deleted lists,
and replacing the modified lists changes neither flag nor the computed new
version. -/
theorem claim_C3 (w : Webhook) (fr : FetchResult) (cv : String)
    (mv ms mc : List Asset) :
    (hasAddedOf w fr = true ↔
      (w.created_variables ≠ [] ∨ w.created_styles ≠ []
        ∨ w.created_components ≠ []))
    ∧ (hasDeletedOf w = true ↔
      (w.deleted_variables ≠ [] ∨ w.deleted_styles ≠ []
        ∨ w.deleted_components ≠ []))
    ∧ hasAddedOf (setModified w mv ms mc) fr = hasAddedOf w fr
    ∧ hasDeletedOf (setModified w mv ms mc) = hasDeletedOf w
    ∧ newVersionOf cv (setModified w mv ms mc) fr = newVersionOf cv w fr := by
  refine ⟨?_, ?_, rfl, rfl, rfl⟩
  · simp only [hasAddedOf, stylesAddedOf, componentsAddedOf, List.length_map,
      decide_eq_true_eq, ← List.length_pos]
    omega
  · simp only [hasDeletedOf, componentsDeletedOf, List.length_map,
      decide_eq_true_eq, ← List.length_pos]
    omega

/-- C8: with a truthy timestamp in the webhook, `buildReport` does not depend
on the wall clock — two runs with the same change set, previous version and
enrichment but different `Date.now()` values produce identical reports,
including a byte-identical changelog section. -/
theorem claim_C8 (w : Webhook) (cv : String) (fr : FetchResult)
    (now1 now2 : Int) (t : Int) (ht : w.timestamp = some t) (h0 : t ≠ 0) :
    buildReport w cv fr now1 = buildReport w cv fr now2 := by
  have hts : ∀ n : Int, timestampMs w n = t := by
    intro n
    simp [timestampMs, ht, h0]
  simp [buildReport, changelogMdOf, dateStrOf, hts]

/-- Witness for C8: two wall-clock values, identical reports. -/
theorem claim_C8_witness :
    buildReport w8 "1.2.3" fr8 111 = buildReport w8 "1.2.3" fr8 999999 :=
  claim_C8 w8 "1.2.3" fr8 111 999999 1700000000000 rfl (by decide)

/-- C9 counterexample: `fetchFigma` maps over the concatenation of the
created and modified lists without deduplication, so the key "k", present in
both, is fetched twice — not once. -/
theorem claim_C9_counterexample :
    requestedComponentKeys c9w = ["k", "k"]
    ∧ (requestedComponentKeys c9w).count "k" ≠ 1 :=
  ⟨by decide, by decide⟩

/-- C9 (amended): the resolver issues exactly one lookup per occurrence of a
key in the concatenated created-and-modified lists (components and styles
alike): the lookup count of a key is the sum of its occurrence counts in the
two lists, so a key present in both lists is looked up twice. -/
theorem claim_C9_amended (w : Webhook) (k : String) :
    (requestedComponentKeys w).length
        = w.created_components.length + w.modified_components.length
    ∧ (requestedComponentKeys w).count k
        = (w.created_components.map (fun c => c.key)).count k
          + (w.modified_components.map (fun c => c.key)).count k
    ∧ (requestedStyleKeys w).length
        = w.created_styles.length + w.modified_styles.length
    ∧ (requestedStyleKeys w).count k
        = (w.created_styles.map (fun s => s.key)).count k
          + (w.modified_styles.map (fun s => s.key)).count k := by
  refine ⟨?_, ?_, ?_, ?_⟩ <;>
    simp [requestedComponentKeys, requestedStyleKeys, List.count_append]
